import Mathlib

set_option maxRecDepth 4000

/-!
Verification of the DancingStar image-to-semigraphic pipeline.

Shallow embedding of `SemiGraphicConverter` (semi-graphic-converter.ts) and
`Z80Exporter` (z80-exporter.ts).  Machine integers are modelled as `Nat`;
pixel buffers as a byte function `Nat → Nat` (row-major RGBA, as the code
indexes them); the JS `findNearestColor` compares `Math.sqrt` of integer
squared distances, which for these integer inputs orders exactly like the
squared distances themselves, so distances are embedded squared over `Nat`.
-/

/-- RGB color triple, fields are byte values (interface RGBColor). -/
structure RGBColor where
  r : Nat
  g : Nat
  b : Nat
deriving DecidableEq

/-- One semi-graphic block: 8-bit dot pattern plus color code 0-7
(interface SemiGraphicBlock). -/
structure SemiGraphicBlock where
  pattern : Nat
  colorCode : Nat
deriving DecidableEq

/-- A converted image: grid size in blocks and the [y][x] block matrix
(interface SemiGraphicData). -/
structure SemiGraphicData where
  width : Nat
  height : Nat
  blocks : List (List SemiGraphicBlock)
deriving DecidableEq

/-- A decoded raster image: dimensions plus the RGBA byte buffer, modelled
as the function sending a flat byte index to the byte stored there. -/
structure ImageData where
  width : Nat
  height : Nat
  data : Nat → Nat

/-- The fixed digital 8-color palette (SemiGraphicConverter.DIGITAL_COLORS). -/
def DIGITAL_COLORS : List RGBColor :=
  [⟨0, 0, 0⟩, ⟨0, 0, 255⟩, ⟨255, 0, 0⟩, ⟨255, 0, 255⟩,
   ⟨0, 255, 0⟩, ⟨0, 255, 255⟩, ⟨255, 255, 0⟩, ⟨255, 255, 255⟩]

/-- Palette entry at index `i` (out-of-range reads return black; the code
only indexes 0..7). -/
def palette (i : Nat) : RGBColor := DIGITAL_COLORS.getD i ⟨0, 0, 0⟩

/-- Squared Euclidean RGB distance.  The source computes
`Math.sqrt((r-r')^2 + (g-g')^2 + (b-b')^2)`; `sqrt` is strictly monotone,
so comparisons of the source's distances coincide with comparisons of
these squared values. -/
def dist2 (a b : RGBColor) : Nat :=
  (((a.r : Int) - b.r) ^ 2 + ((a.g : Int) - b.g) ^ 2 + ((a.b : Int) - b.b) ^ 2).toNat

/-- One iteration of the findNearestColor loop: state is
(minDistance, nearestIndex) with `none` standing for the initial Infinity. -/
def nearStep (rgb : RGBColor) (st : Option Nat × Nat) (i : Nat) : Option Nat × Nat :=
  match st.1 with
  | none => (some (dist2 rgb (palette i)), i)
  | some m => if dist2 rgb (palette i) < m then (some (dist2 rgb (palette i)), i) else st

/-- SemiGraphicConverter.findNearestColor: index of the palette entry at
minimal Euclidean distance, first minimum winning (strict `<` update). -/
def findNearestColor (rgb : RGBColor) : Nat :=
  ((List.range 8).foldl (nearStep rgb) (none, 0)).2

/-- One iteration of the getMostFrequentColor maximum scan: state is
(maxCount, mostFrequent). -/
def freqStep (colors : List Nat) (st : Nat × Nat) (c : Nat) : Nat × Nat :=
  if colors.count c > st.1 then (colors.count c, c) else st

/-- SemiGraphicConverter.getMostFrequentColor.  The source tallies non-black
votes in an object keyed by color and scans `Object.entries` of it, which
iterates integer-like keys in ascending numeric order; for palette-index
votes (0..7, the only values callers produce) that is exactly an ascending
scan over colors 1..7, colors of count 0 never beating `maxCount ≥ 0`. -/
def getMostFrequentColor (colors : List Nat) : Nat :=
  if colors.isEmpty then 0
  else ([1, 2, 3, 4, 5, 6, 7].foldl (freqStep colors) (0, 0)).2

/-- PC-8801 bit placement: left column (dx = 0) occupies bits 0-3 top to
bottom, right column (dx = 1) bits 4-7 (`dx === 0 ? dy : 4 + dy`). -/
def bitIndex (dx dy : Nat) : Nat := if dx = 0 then dy else 4 + dy

/-- The 8 in-block dot offsets (dx, dy), in the order the nested
`for dy … for dx …` loops of the converter visit them. -/
def cellList : List (Nat × Nat) :=
  [(0, 0), (1, 0), (0, 1), (1, 1), (0, 2), (1, 2), (0, 3), (1, 3)]

/-- Flat byte index of pixel (px, py): `(pixelY * originalWidth + pixelX) * 4`. -/
def pixIdx (img : ImageData) (px py : Nat) : Nat := (py * img.width + px) * 4

/-- One dot of convertImageDataToSemiGraphic's inner loop.  State is
(pattern accumulator, blockColors list).  A transparent (`a < 128`) or
out-of-range dot votes black; an opaque dot votes its nearest color and
sets its pattern bit only when that color is not black (`colorIndex !== 0`). -/
def imgDataStep (img : ImageData) (x y : Nat) (st : Nat × List Nat) (c : Nat × Nat) :
    Nat × List Nat :=
  let pixelX := x * 2 + c.1
  let pixelY := y * 4 + c.2
  if pixelX < img.width ∧ pixelY < img.height then
    let i := pixIdx img pixelX pixelY
    if img.data (i + 3) < 128 then (st.1, st.2 ++ [0])
    else
      let colorIndex := findNearestColor ⟨img.data i, img.data (i + 1), img.data (i + 2)⟩
      if colorIndex ≠ 0 then (st.1 ||| (1 <<< bitIndex c.1 c.2), st.2 ++ [colorIndex])
      else (st.1, st.2 ++ [colorIndex])
  else (st.1, st.2 ++ [0])

/-- The 2x4 block at grid cell (x, y) as convertImageDataToSemiGraphic
computes it. -/
def imgDataBlock (img : ImageData) (x y : Nat) : SemiGraphicBlock :=
  let res := cellList.foldl (imgDataStep img x y) (0, [])
  ⟨res.1, getMostFrequentColor res.2⟩

/-- SemiGraphicConverter.convertImageDataToSemiGraphic: grid of
ceil(W/2) x ceil(H/4) blocks. -/
def convertImageDataToSemiGraphic (img : ImageData) : SemiGraphicData :=
  let semiWidth := (img.width + 1) / 2
  let semiHeight := (img.height + 3) / 4
  ⟨semiWidth, semiHeight,
   (List.range semiHeight).map fun y =>
     (List.range semiWidth).map fun x => imgDataBlock img x y⟩

/-- One dot of generateSemiGraphicBlockFromJimp's loop.  Out-of-range dots
are skipped (`continue`), an opaque dot (`alpha > 127`) sets its pattern
bit unconditionally and votes its nearest color; transparent dots
contribute nothing. -/
def jimpStep (img : ImageData) (x y : Nat) (st : Nat × List Nat) (c : Nat × Nat) :
    Nat × List Nat :=
  let pixelX := x * 2 + c.1
  let pixelY := y * 4 + c.2
  if img.width ≤ pixelX ∨ img.height ≤ pixelY then st
  else
    let i := pixIdx img pixelX pixelY
    if 127 < img.data (i + 3) then
      (st.1 ||| (1 <<< bitIndex c.1 c.2),
       st.2 ++ [findNearestColor ⟨img.data i, img.data (i + 1), img.data (i + 2)⟩])
    else st

/-- The 2x4 block at grid cell (x, y) as generateSemiGraphicBlockFromJimp
computes it, reading the same RGBA pixel content. -/
def jimpBlock (img : ImageData) (x y : Nat) : SemiGraphicBlock :=
  let res := cellList.foldl (jimpStep img x y) (0, [])
  ⟨res.1, getMostFrequentColor res.2⟩

/-- SemiGraphicConverter.convertJimpToSemiGraphic (the body shared by
convertImageFile and convertImageFromProject once the image is decoded). -/
def convertJimpToSemiGraphic (img : ImageData) : SemiGraphicData :=
  let semiWidth := (img.width + 1) / 2
  let semiHeight := (img.height + 3) / 4
  ⟨semiWidth, semiHeight,
   (List.range semiHeight).map fun y =>
     (List.range semiWidth).map fun x => jimpBlock img x y⟩

/-- A 2x4 all-white image whose dot (dx, dy) is opaque exactly when bit
`bitIndex dx dy` of `m` is set: every pixel is RGB (255,255,255), alpha is
255 on set dots and 0 elsewhere. -/
def whiteMaskImage (m : Nat) : ImageData :=
  ⟨2, 4, fun i =>
    if i % 4 = 3 then (if Nat.testBit m (bitIndex (i / 4 % 2) (i / 4 / 2)) then 255 else 0)
    else 255⟩

/-- A 2x4 image that is opaque black everywhere: RGBA (0,0,0,255). -/
def allBlackImage : ImageData :=
  ⟨2, 4, fun i => if i % 4 = 3 then 255 else 0⟩

example : (convertImageDataToSemiGraphic (whiteMaskImage 255)).blocks = [[⟨0xFF, 7⟩]] := by
  decide
example : (convertJimpToSemiGraphic (whiteMaskImage 255)).blocks = [[⟨0xFF, 7⟩]] := by decide
example : (convertImageDataToSemiGraphic allBlackImage).blocks = [[⟨0x00, 0⟩]] := by decide
example : (convertJimpToSemiGraphic allBlackImage).blocks = [[⟨0xFF, 0⟩]] := by decide

/-- Invariant of the maximum scan in getMostFrequentColor.  Over a strictly
ascending candidate list, the final state's count bounds every candidate's
count, the final state is the initial one or records a genuine candidate,
and any candidate smaller than the winner has a strictly smaller count
(the first color reaching the maximum wins). -/
theorem freqFold_spec (colors l : List Nat) :
    ∀ st : Nat × Nat, l.Pairwise (· < ·) → (∀ c ∈ l, st.2 < c) →
      st.1 ≤ (l.foldl (freqStep colors) st).1 ∧
      (∀ c ∈ l, colors.count c ≤ (l.foldl (freqStep colors) st).1) ∧
      ((l.foldl (freqStep colors) st) = st ∨
        ((l.foldl (freqStep colors) st).2 ∈ l ∧
         (l.foldl (freqStep colors) st).1 = colors.count (l.foldl (freqStep colors) st).2 ∧
         st.1 < (l.foldl (freqStep colors) st).1)) ∧
      (∀ c ∈ l, c < (l.foldl (freqStep colors) st).2 →
        colors.count c < (l.foldl (freqStep colors) st).1) := by
  induction l with
  | nil => intro st _ _; simp
  | cons c0 rest ih =>
    intro st hpw hst
    obtain ⟨hlt, hpw'⟩ := List.pairwise_cons.mp hpw
    simp only [List.foldl_cons]
    by_cases himp : colors.count c0 > st.1
    · have hstep : freqStep colors st c0 = (colors.count c0, c0) := by
        simp [freqStep, himp]
      rw [hstep]
      obtain ⟨ih1, ih2, ih3, ih4⟩ := ih (colors.count c0, c0) hpw' hlt
      refine ⟨by omega, ?_, ?_, ?_⟩
      · intro c hc
        rcases List.mem_cons.mp hc with h | h
        · subst h; exact ih1
        · exact ih2 c h
      · rcases ih3 with h | ⟨hmem, heq, hgt⟩
        · rw [h]; exact Or.inr ⟨List.mem_cons_self .., rfl, himp⟩
        · exact Or.inr ⟨List.mem_cons_of_mem _ hmem, heq, by omega⟩
      · intro c hc hcl
        rcases List.mem_cons.mp hc with h | h
        · subst h
          rcases ih3 with h | ⟨_, _, hgt⟩
          · rw [h] at hcl; omega
          · omega
        · exact ih4 c h hcl
    · have hstep : freqStep colors st c0 = st := by
        simp [freqStep]; omega
      rw [hstep]
      obtain ⟨ih1, ih2, ih3, ih4⟩ := ih st hpw'
        (fun c hc => lt_trans (hst c0 (List.mem_cons_self ..)) (hlt c hc))
      refine ⟨ih1, ?_, ?_, ?_⟩
      · intro c hc
        rcases List.mem_cons.mp hc with h | h
        · subst h; omega
        · exact ih2 c h
      · rcases ih3 with h | ⟨hmem, heq, hgt⟩
        · exact Or.inl h
        · exact Or.inr ⟨List.mem_cons_of_mem _ hmem, heq, hgt⟩
      · intro c hc hcl
        rcases List.mem_cons.mp hc with h | h
        · subst h
          rcases ih3 with h | ⟨_, _, hgt⟩
          · rw [h] at hcl
            exact absurd hcl (by have := hst c (List.mem_cons_self ..); omega)
          · omega
        · exact ih4 c h hcl


/-- Invariant of the minimum scan in findNearestColor, once the first
candidate has replaced the Infinity initial state.  Over a strictly
ascending index list all of whose members exceed the currently recorded
index, the final distance bounds every candidate from below, the final
state is the initial one or records a candidate strictly better than `m`,
and every candidate with an index below the winner is strictly farther
(the first minimum wins ties). -/
theorem nearFold_spec (rgb : RGBColor) (l : List Nat) :
    ∀ (m j : Nat), l.Pairwise (· < ·) → (∀ i ∈ l, j < i) →
      ∃ mf, (l.foldl (nearStep rgb) (some m, j)).1 = some mf ∧ mf ≤ m ∧
        (∀ i ∈ l, mf ≤ dist2 rgb (palette i)) ∧
        (((l.foldl (nearStep rgb) (some m, j)).2 = j ∧ mf = m) ∨
          ((l.foldl (nearStep rgb) (some m, j)).2 ∈ l ∧
           mf = dist2 rgb (palette (l.foldl (nearStep rgb) (some m, j)).2) ∧ mf < m)) ∧
        (∀ i ∈ l, i < (l.foldl (nearStep rgb) (some m, j)).2 →
          mf < dist2 rgb (palette i)) := by
  induction l with
  | nil => intro m j _ _; exact ⟨m, rfl, le_refl m, by simp, Or.inl ⟨rfl, rfl⟩, by simp⟩
  | cons i0 rest ih =>
    intro m j hpw hj
    obtain ⟨hlt, hpw'⟩ := List.pairwise_cons.mp hpw
    simp only [List.foldl_cons]
    by_cases himp : dist2 rgb (palette i0) < m
    · have hstep : nearStep rgb (some m, j) i0 = (some (dist2 rgb (palette i0)), i0) := by
        simp [nearStep, himp]
      rw [hstep]
      obtain ⟨mf, h1, h2, h3, h4, h5⟩ := ih (dist2 rgb (palette i0)) i0 hpw' hlt
      refine ⟨mf, h1, by omega, ?_, ?_, ?_⟩
      · intro i hi
        rcases List.mem_cons.mp hi with h | h
        · subst h; exact h2
        · exact h3 i h
      · rcases h4 with ⟨heq, hm⟩ | ⟨hmem, heq, hm⟩
        · exact Or.inr ⟨by rw [heq]; exact List.mem_cons_self .., by rw [heq]; omega⟩
        · exact Or.inr ⟨List.mem_cons_of_mem _ hmem, heq, by omega⟩
      · intro i hi hiw
        rcases List.mem_cons.mp hi with h | h
        · subst h
          rcases h4 with ⟨heq, hm⟩ | ⟨_, _, hm⟩
          · rw [heq] at hiw; omega
          · omega
        · exact h5 i h hiw
    · have hstep : nearStep rgb (some m, j) i0 = (some m, j) := by
        simp [nearStep]; omega
      rw [hstep]
      obtain ⟨mf, h1, h2, h3, h4, h5⟩ := ih m j hpw'
        (fun i hi => lt_trans (hj i0 (List.mem_cons_self ..)) (hlt i hi))
      refine ⟨mf, h1, h2, ?_, ?_, ?_⟩
      · intro i hi
        rcases List.mem_cons.mp hi with h | h
        · subst h; omega
        · exact h3 i h
      · rcases h4 with ⟨heq, hm⟩ | ⟨hmem, heq, hm⟩
        · exact Or.inl ⟨heq, hm⟩
        · exact Or.inr ⟨List.mem_cons_of_mem _ hmem, heq, hm⟩
      · intro i hi hiw
        rcases List.mem_cons.mp hi with h | h
        · subst h
          rcases h4 with ⟨heq, hm⟩ | ⟨_, _, hm⟩
          · rw [heq] at hiw
            exact absurd hiw (by have := hj i (List.mem_cons_self ..); omega)
          · omega
        · exact h5 i h hiw

/-- Claim C8: findNearestColor returns an index 0-7 minimizing the RGB
distance, the first minimal index winning ties; it is idempotent on the
palette; and RGB(50,50,50) ↦ 0, RGB(200,200,200) ↦ 7, RGB(200,100,0) ↦ 2. -/
theorem C8_nearest_color (rgb : RGBColor) :
    findNearestColor rgb < 8 ∧
    (∀ i, i < 8 → dist2 rgb (palette (findNearestColor rgb)) ≤ dist2 rgb (palette i)) ∧
    (∀ i, i < findNearestColor rgb →
      dist2 rgb (palette (findNearestColor rgb)) < dist2 rgb (palette i)) ∧
    (∀ i, i < 8 → findNearestColor (palette i) = i) ∧
    findNearestColor ⟨50, 50, 50⟩ = 0 ∧ findNearestColor ⟨200, 200, 200⟩ = 7 ∧
    findNearestColor ⟨200, 100, 0⟩ = 2 := by
  have hrange : List.range 8 = 0 :: [1, 2, 3, 4, 5, 6, 7] := by decide
  have hfold : findNearestColor rgb =
      ([1, 2, 3, 4, 5, 6, 7].foldl (nearStep rgb) (some (dist2 rgb (palette 0)), 0)).2 := by
    rw [findNearestColor, hrange]
    rfl
  obtain ⟨mf, h1, h2, h3, h4, h5⟩ := nearFold_spec rgb [1, 2, 3, 4, 5, 6, 7]
    (dist2 rgb (palette 0)) 0 (by simp [List.pairwise_cons]) (by intro i hi; simp at hi; omega)
  set res := [1, 2, 3, 4, 5, 6, 7].foldl (nearStep rgb) (some (dist2 rgb (palette 0)), 0)
    with hresdef
  have hmin : ∀ i, i < 8 → mf ≤ dist2 rgb (palette i) := by
    intro i hi
    by_cases h0 : i = 0
    · subst h0; exact h2
    · exact h3 i (by interval_cases i <;> simp_all)
  have hval : mf = dist2 rgb (palette res.2) := by
    rcases h4 with ⟨heq, hm⟩ | ⟨_, heq, _⟩
    · rw [heq, hm]
    · exact heq
  refine ⟨?_, ?_, ?_, by decide, by decide, by decide, by decide⟩
  · rw [hfold]
    rcases h4 with ⟨heq, _⟩ | ⟨hmem, _, _⟩
    · omega
    · simp at hmem; omega
  · intro i hi
    rw [hfold, ← hval]
    exact hmin i hi
  · intro i hi
    rw [hfold, ← hval]
    rw [hfold] at hi
    by_cases h0 : i = 0
    · subst h0
      rcases h4 with ⟨heq, _⟩ | ⟨_, _, hm⟩
      · rw [heq] at hi; omega
      · omega
    · refine h5 i ?_ hi
      have hle : res.2 ≤ 7 := by
        rcases h4 with ⟨heq, _⟩ | ⟨hmem, _, _⟩
        · omega
        · simp at hmem; omega
      have : i < 7 := by omega
      interval_cases i <;> simp_all

/-- Witness for C8 at RGB(200,100,0): totality at a concrete input. -/
theorem C8_nearest_color_witness : findNearestColor ⟨200, 100, 0⟩ < 8 :=
  (C8_nearest_color ⟨200, 100, 0⟩).1

/-- getMostFrequentColor always agrees with the plain maximum scan, the
empty-list early return included (an empty list has all counts 0, so the
scan also yields 0). -/
theorem getMostFrequentColor_eq_fold (colors : List Nat) :
    getMostFrequentColor colors = ([1, 2, 3, 4, 5, 6, 7].foldl (freqStep colors) (0, 0)).2 := by
  by_cases hc : colors = []
  · subst hc; decide
  · simp [getMostFrequentColor, hc]

/-- Claim C7: the block color is the most frequent non-black vote; an empty
or all-black vote list yields 0; ties resolve to the first (lowest-index)
color reaching the maximum count; 4 red + 2 green votes yield red. -/
theorem C7_most_frequent_color (colors : List Nat) (h7 : ∀ c ∈ colors, c ≤ 7) :
    ((∀ c ∈ colors, c = 0) → getMostFrequentColor colors = 0) ∧
    ((∃ c ∈ colors, c ≠ 0) →
      1 ≤ getMostFrequentColor colors ∧ getMostFrequentColor colors ≤ 7 ∧
      (∀ c, 1 ≤ c → c ≤ 7 → colors.count c ≤ colors.count (getMostFrequentColor colors)) ∧
      (∀ c, 1 ≤ c → c < getMostFrequentColor colors →
        colors.count c < colors.count (getMostFrequentColor colors))) ∧
    getMostFrequentColor [2, 2, 2, 2, 4, 4] = 2 := by
  obtain ⟨s1, s2, s3, s4⟩ := freqFold_spec colors [1, 2, 3, 4, 5, 6, 7] (0, 0)
    (by simp [List.pairwise_cons]) (by intro c hc; simp at hc; omega)
  rw [getMostFrequentColor_eq_fold]
  set res := [1, 2, 3, 4, 5, 6, 7].foldl (freqStep colors) (0, 0) with hres
  refine ⟨?_, ?_, by decide⟩
  · intro hall
    have hcnt : ∀ c ∈ ([1, 2, 3, 4, 5, 6, 7] : List Nat), colors.count c = 0 := by
      intro c hc
      refine List.count_eq_zero.mpr fun hmem => ?_
      have := hall c hmem
      simp at hc; omega
    rcases s3 with h | ⟨hmem, heq, hgt⟩
    · rw [h]
    · rw [hcnt res.2 hmem] at heq; omega
  · rintro ⟨c, hc, hc0⟩
    have hcl : c ∈ ([1, 2, 3, 4, 5, 6, 7] : List Nat) := by
      have := h7 c hc
      interval_cases c <;> simp_all
    have hpos : 1 ≤ colors.count c := List.count_pos_iff.mpr hc
    have hres1 : 1 ≤ res.1 := le_trans hpos (s2 c hcl)
    rcases s3 with h | ⟨hmem, heq, hgt⟩
    · rw [h] at hres1; omega
    have hbounds : 1 ≤ res.2 ∧ res.2 ≤ 7 := by simp at hmem; omega
    refine ⟨hbounds.1, hbounds.2, ?_, ?_⟩
    · intro d h1 h2
      have hdl : d ∈ ([1, 2, 3, 4, 5, 6, 7] : List Nat) := by
        interval_cases d <;> simp
      have := s2 d hdl
      omega
    · intro d h1 h2
      have hdl : d ∈ ([1, 2, 3, 4, 5, 6, 7] : List Nat) := by
        have : d < 7 := by omega
        interval_cases d <;> simp
      have := s4 d hdl h2
      omega

/-- Witness for C7 at the spec's mixed 8-sample block: 4 red votes, 2 green
votes, 2 unset samples (no vote). -/
theorem C7_most_frequent_color_witness :
    1 ≤ getMostFrequentColor [2, 2, 2, 2, 4, 4] ∧ getMostFrequentColor [2, 2, 2, 2, 4, 4] ≤ 7 :=
  ⟨((C7_most_frequent_color [2, 2, 2, 2, 4, 4] (by decide)).2.1
      ⟨2, by decide, by decide⟩).1,
   ((C7_most_frequent_color [2, 2, 2, 2, 4, 4] (by decide)).2.1
      ⟨2, by decide, by decide⟩).2.1⟩

/-- Upper-case hex digit for a value 0-15. -/
def hexDigit (n : Nat) : Char :=
  ['0', '1', '2', '3', '4', '5', '6', '7', '8', '9', 'A', 'B', 'C', 'D', 'E', 'F'].getD n '0'

/-- Fuel-driven base-16 digit extraction; `fuel` only bounds the recursion
depth (any `fuel > n` computes the digits of `n`). -/
def hexDigitsGo : Nat → Nat → List Char
  | 0, _ => []
  | fuel + 1, n =>
    if n < 16 then [hexDigit n]
    else hexDigitsGo fuel (n / 16) ++ [hexDigit (n % 16)]

/-- Digits of `n` in base 16, most significant first (JS toString(16),
upper-cased). -/
def hexDigits (n : Nat) : List Char := hexDigitsGo (n + 1) n

/-- `n.toString(16).padStart(2, '0').toUpperCase()`. -/
def toHex2 (n : Nat) : String :=
  let s := hexDigits n
  ⟨List.replicate (2 - s.length) '0' ++ s⟩

example : toHex2 0xCC = "CC" := by decide
example : toHex2 5 = "05" := by decide

/-- Fuel-driven 16-chunking; any `fuel ≥ l.length` chunks all of `l`. -/
def chunks16Go : Nat → List α → List (List α)
  | _, [] => []
  | 0, _ :: _ => []
  | fuel + 1, x :: xs => ((x :: xs).take 16) :: chunks16Go fuel ((x :: xs).drop 16)

/-- The chunking loop of generateSemiGraphicDB: `for i += 16` slicing 16
elements at a time, restarted for every grid row. -/
def chunks16 (l : List α) : List (List α) := chunks16Go l.length l

/-- Z80Exporter.generateSemiGraphicDB: a comment line, the label, then per
grid row the row's pattern bytes in 16-byte DB lines. -/
def generateSemiGraphicDB (semiData : SemiGraphicData) (label : String) : List String :=
  ["; セミグラフィックデータ (" ++ toString semiData.width ++ "x" ++
     toString semiData.height ++ ")", label ++ ":"] ++
  (List.range semiData.height).flatMap fun y =>
    let dataBytes := (semiData.blocks.getD y []).map fun b => "$" ++ toHex2 b.pattern
    (chunks16 dataBytes).map fun chunk => "\tDB\t" ++ String.intercalate ", " chunk

/-- Z80Exporter.getAttributeColorCode: fixed color-code → attribute-byte
table, indices outside 0-7 defaulting to white 0xF8. -/
def getAttributeColorCode (colorCode : Nat) : Nat :=
  [0x18, 0x38, 0x58, 0x78, 0x98, 0xB8, 0xD8, 0xF8].getD colorCode 0xF8

/-- One scan step of generateColorAttributeDB's color-change loop.  State is
(currentColor as Int with -1 sentinel, changeCount, emitted pairs).  Black
is skipped outright; any other color differing from the tracked one emits
an (x, attribute) pair and becomes tracked. -/
def attrStep (row : List Nat) (st : Int × Nat × List (Nat × Nat)) (x : Nat) :
    Int × Nat × List (Nat × Nat) :=
  let colorCode := row.getD x 0
  if colorCode = 0 then st
  else if (colorCode : Int) ≠ st.1 then
    (colorCode, st.2.1 + 1, st.2.2 ++ [(x, getAttributeColorCode colorCode)])
  else st

/-- Per-row body of generateColorAttributeDB: trim leading white (color 7),
fall back to a single white pair when nothing remains or the scan emits no
change, otherwise return (changeCount, pairs). -/
def encodeAttrRow (row : List Nat) : Nat × List (Nat × Nat) :=
  let startIndex := (row.takeWhile (· == 7)).length
  if row.length ≤ startIndex then (1, [(0, 0xF8)])
  else
    let res := (List.range' startIndex (row.length - startIndex)).foldl (attrStep row) (-1, 0, [])
    if res.2.1 = 0 then (1, [(0, 0xF8)]) else (res.2.1, res.2.2)

/-- Rendering of one attribute DB line: count first, then the pairs.  The
source's dedicated all-white/no-change branch emits the literal
`DB 1, 0, $F8`, which is exactly this rendering of (1, [(0, 0xF8)]). -/
def renderAttrLine (cp : Nat × List (Nat × Nat)) : String :=
  "\tDB\t" ++ toString cp.1 ++ ", " ++
    String.intercalate ", " (cp.2.map fun p => toString p.1 ++ ", $" ++ toHex2 p.2)

/-- Z80Exporter.generateColorAttributeDB: a comment line, the label, then
one DB line per grid row encoding that row's color changes. -/
def generateColorAttributeDB (semiData : SemiGraphicData) (label : String) : List String :=
  ["; カラーアトリビュートデータ (" ++ toString semiData.width ++ "x" ++
     toString semiData.height ++ ")", label ++ ":"] ++
  (List.range semiData.height).map fun y =>
    renderAttrLine (encodeAttrRow ((semiData.blocks.getD y []).map (·.colorCode)))

example : encodeAttrRow [1, 7, 7, 2, 2, 1, 7, 1, 7, 1, 7, 7] =
    (9, [(0, 0x38), (1, 0xF8), (3, 0x58), (5, 0x38), (6, 0xF8), (7, 0x38), (8, 0xF8),
         (9, 0x38), (10, 0xF8)]) := by decide
example : encodeAttrRow [7, 2, 1, 7, 7] = (3, [(1, 0x58), (2, 0x38), (3, 0xF8)]) := by decide
example : encodeAttrRow [7, 7, 7] = (1, [(0, 0xF8)]) := by decide
example : encodeAttrRow [0, 0] = (1, [(0, 0xF8)]) := by decide
example : renderAttrLine (1, [(0, 0xF8)]) = "\tDB\t1, 0, $F8" := by decide

/-- A black dot is skipped outright by the scan: no pair, no state change. -/
theorem attrStep_black (row : List Nat) (st : Int × Nat × List (Nat × Nat)) (x : Nat)
    (h : row.getD x 0 = 0) : attrStep row st x = st := by
  simp only [attrStep]
  rw [if_pos h]

/-- A dot of the currently tracked color is skipped: no new pair. -/
theorem attrStep_same (row : List Nat) (st : Int × Nat × List (Nat × Nat)) (x : Nat)
    (h : (row.getD x 0 : Int) = st.1) : attrStep row st x = st := by
  simp only [attrStep]
  by_cases h0 : row.getD x 0 = 0
  · rw [if_pos h0]
  · rw [if_neg h0, if_neg fun hne => hne h]

/-- A scan over positions that all hold black leaves the state untouched. -/
theorem attrFold_const (row l : List Nat) :
    ∀ st, (∀ x ∈ l, row.getD x 0 = 0) → l.foldl (attrStep row) st = st := by
  induction l with
  | nil => intro st _; rfl
  | cons x0 rest ih =>
    intro st h
    simp only [List.foldl_cons]
    rw [attrStep_black row st x0 (h x0 (List.mem_cons_self ..))]
    exact ih st fun x hx => h x (List.mem_cons_of_mem _ hx)

/-- The change counter never decreases along the scan. -/
theorem attrFold_count_mono (row l : List Nat) :
    ∀ st, st.2.1 ≤ (l.foldl (attrStep row) st).2.1 := by
  induction l with
  | nil => intro st; exact le_refl _
  | cons x0 rest ih =>
    intro st
    simp only [List.foldl_cons]
    refine le_trans ?_ (ih (attrStep row st x0))
    simp only [attrStep]
    split_ifs <;> simp

/-- If some scanned position holds a non-black color, the scan starting from
the -1 sentinel emits at least one pair. -/
theorem attrFold_pos (row l : List Nat) :
    ∀ st : Int × Nat × List (Nat × Nat), st.1 = -1 →
      (∃ x ∈ l, row.getD x 0 ≠ 0) → 1 ≤ (l.foldl (attrStep row) st).2.1 := by
  induction l with
  | nil => rintro st _ ⟨x, hx, _⟩; simp at hx
  | cons x0 rest ih =>
    rintro st hcur ⟨x, hx, hx0⟩
    simp only [List.foldl_cons]
    by_cases h0 : row.getD x0 0 = 0
    · rw [attrStep_black row st x0 h0]
      refine ih st hcur ⟨x, ?_, hx0⟩
      rcases List.mem_cons.mp hx with h | h
      · subst h; exact absurd h0 hx0
      · exact h
    · have hne : (row.getD x0 0 : Int) ≠ st.1 := by rw [hcur]; omega
      have hstep : (attrStep row st x0).2.1 = st.2.1 + 1 := by
        simp only [attrStep]
        rw [if_neg h0, if_pos hne]
      have := attrFold_count_mono row rest (attrStep row st x0)
      omega

/-- Main invariant of the color-change scan over a strictly ascending
position list: the change counter counts the pairs, the emitted x-positions
are strictly increasing, and every emitted pair either predates the scan or
sits at a scanned position holding that position's (non-black) attribute. -/
theorem attrFold_spec (row l : List Nat) :
    ∀ st : Int × Nat × List (Nat × Nat), l.Pairwise (· < ·) →
      (∀ p ∈ st.2.2, ∀ x ∈ l, p.1 < x) →
      st.2.1 = st.2.2.length →
      (st.2.2.map Prod.fst).Pairwise (· < ·) →
      (l.foldl (attrStep row) st).2.1 = (l.foldl (attrStep row) st).2.2.length ∧
      ((l.foldl (attrStep row) st).2.2.map Prod.fst).Pairwise (· < ·) ∧
      (∀ p ∈ (l.foldl (attrStep row) st).2.2,
        p ∈ st.2.2 ∨
          (p.1 ∈ l ∧ p.2 = getAttributeColorCode (row.getD p.1 0) ∧ row.getD p.1 0 ≠ 0)) := by
  induction l with
  | nil => intro st _ _ hlen hpw2; exact ⟨hlen, hpw2, fun p hp => Or.inl hp⟩
  | cons x0 rest ih =>
    intro st hpw hbound hlen hpw2
    obtain ⟨hlt, hpw'⟩ := List.pairwise_cons.mp hpw
    simp only [List.foldl_cons]
    by_cases h0 : row.getD x0 0 = 0
    · rw [attrStep_black row st x0 h0]
      obtain ⟨c1, c2, c3⟩ := ih st hpw'
        (fun p hp x hx => hbound p hp x (List.mem_cons_of_mem _ hx)) hlen hpw2
      refine ⟨c1, c2, fun p hp => ?_⟩
      rcases c3 p hp with h | ⟨hmem, hattr, hnz⟩
      · exact Or.inl h
      · exact Or.inr ⟨List.mem_cons_of_mem _ hmem, hattr, hnz⟩
    · by_cases hsame : (row.getD x0 0 : Int) = st.1
      · rw [attrStep_same row st x0 hsame]
        obtain ⟨c1, c2, c3⟩ := ih st hpw'
          (fun p hp x hx => hbound p hp x (List.mem_cons_of_mem _ hx)) hlen hpw2
        refine ⟨c1, c2, fun p hp => ?_⟩
        rcases c3 p hp with h | ⟨hmem, hattr, hnz⟩
        · exact Or.inl h
        · exact Or.inr ⟨List.mem_cons_of_mem _ hmem, hattr, hnz⟩
      · have hstep : attrStep row st x0 =
            ((row.getD x0 0 : Int), st.2.1 + 1,
             st.2.2 ++ [(x0, getAttributeColorCode (row.getD x0 0))]) := by
          simp only [attrStep]
          rw [if_neg h0, if_pos hsame]
        rw [hstep]
        have hb' : ∀ p ∈ st.2.2 ++ [(x0, getAttributeColorCode (row.getD x0 0))],
            ∀ x ∈ rest, p.1 < x := by
          intro p hp x hx
          rcases List.mem_append.mp hp with h | h
          · exact hbound p h x (List.mem_cons_of_mem _ hx)
          · rw [List.mem_singleton] at h
            subst h
            exact hlt x hx
        have hlen' : st.2.1 + 1 =
            (st.2.2 ++ [(x0, getAttributeColorCode (row.getD x0 0))]).length := by
          simp [hlen]
        have hpw2' : ((st.2.2 ++ [(x0, getAttributeColorCode (row.getD x0 0))]).map
            Prod.fst).Pairwise (· < ·) := by
          rw [List.map_append]
          refine List.pairwise_append.mpr ⟨hpw2, by simp, ?_⟩
          intro a ha b hb
          simp only [List.map_cons, List.map_nil, List.mem_singleton] at hb
          rw [hb]
          obtain ⟨p, hp, rfl⟩ := List.mem_map.mp ha
          exact hbound p hp x0 (List.mem_cons_self ..)
        obtain ⟨c1, c2, c3⟩ := ih ((row.getD x0 0 : Int), st.2.1 + 1,
          st.2.2 ++ [(x0, getAttributeColorCode (row.getD x0 0))]) hpw' hb' hlen' hpw2'
        refine ⟨c1, c2, fun p hp => ?_⟩
        rcases c3 p hp with h | ⟨hmem, hattr, hnz⟩
        · rcases List.mem_append.mp h with h | h
          · exact Or.inl h
          · rw [List.mem_singleton] at h
            subst h
            exact Or.inr ⟨List.mem_cons_self .., rfl, h0⟩
        · exact Or.inr ⟨List.mem_cons_of_mem _ hmem, hattr, hnz⟩

/-- The attribute byte of a non-black color code is never the black
attribute 0x18 (in-range codes map to 0x38..0xF8, out-of-range to 0xF8). -/
theorem getAttributeColorCode_ne_black (c : Nat) (hc : c ≠ 0) :
    getAttributeColorCode c ≠ 0x18 := by
  by_cases h : c < 8
  · interval_cases c <;> simp_all [getAttributeColorCode]
  · unfold getAttributeColorCode
    rw [List.getD_eq_default]
    · decide
    · simp; omega

example : findNearestColor ⟨50, 50, 50⟩ = 0 := by decide
example : findNearestColor ⟨200, 200, 200⟩ = 7 := by decide
example : findNearestColor ⟨200, 100, 0⟩ = 2 := by decide
example : getMostFrequentColor [2, 2, 2, 2, 4, 4] = 2 := by decide
example : getMostFrequentColor [] = 0 := by decide
example : getMostFrequentColor [0, 0, 0] = 0 := by decide

/-- Claim C10: every attribute line is well-formed: the leading count equals
the number of pairs, x-positions are strictly increasing, and (for the
nonempty rows real grids produce) every x-position lies inside the row. -/
theorem C10_attr_line_wellformed (row : List Nat) :
    (encodeAttrRow row).1 = (encodeAttrRow row).2.length ∧
    ((encodeAttrRow row).2.map Prod.fst).Pairwise (· < ·) ∧
    (row ≠ [] → ∀ p ∈ (encodeAttrRow row).2, p.1 < row.length) := by
  simp only [encodeAttrRow]
  by_cases hcase : row.length ≤ (row.takeWhile (· == 7)).length
  · rw [if_pos hcase]
    refine ⟨rfl, by simp, ?_⟩
    intro hne p hp
    rw [List.mem_singleton] at hp
    subst hp
    simpa using List.length_pos.mpr hne
  · rw [if_neg hcase]
    obtain ⟨c1, c2, c3⟩ := attrFold_spec row
      (List.range' (row.takeWhile (· == 7)).length
        (row.length - (row.takeWhile (· == 7)).length)) (-1, 0, [])
      (List.pairwise_lt_range' _ _) (by simp) rfl (by simp)
    by_cases hz : ((List.range' (row.takeWhile (· == 7)).length
        (row.length - (row.takeWhile (· == 7)).length)).foldl (attrStep row)
        (-1, 0, [])).2.1 = 0
    · rw [if_pos hz]
      refine ⟨rfl, by simp, ?_⟩
      intro hne p hp
      rw [List.mem_singleton] at hp
      subst hp
      simpa using List.length_pos.mpr hne
    · rw [if_neg hz]
      refine ⟨c1, c2, ?_⟩
      intro _ p hp
      rcases c3 p hp with h | ⟨hmem, _, _⟩
      · simp at h
      · have := (List.mem_range'_1.mp hmem).2
        omega

/-- Witness for C10 on the spec's five-element example row. -/
theorem C10_attr_line_wellformed_witness :
    ∀ p ∈ (encodeAttrRow [7, 2, 1, 7, 7]).2, p.1 < [7, 2, 1, 7, 7].length :=
  (C10_attr_line_wellformed [7, 2, 1, 7, 7]).2.2 (by decide)

/-- Claim C4: black is skipped by the scan (no pair, no tracked-color
update), a repeated tracked color emits nothing, no emitted pair ever
carries the black attribute 0x18, and the 12-element example row encodes
to count 9 with exactly the claimed pairs. -/
theorem C4_black_passthrough :
    (∀ (row : List Nat) (st : Int × Nat × List (Nat × Nat)) (x : Nat),
      row.getD x 0 = 0 → attrStep row st x = st) ∧
    (∀ (row : List Nat) (st : Int × Nat × List (Nat × Nat)) (x : Nat),
      (row.getD x 0 : Int) = st.1 → attrStep row st x = st) ∧
    (∀ (row : List Nat), ∀ p ∈ (encodeAttrRow row).2, p.2 ≠ 0x18) ∧
    encodeAttrRow [1, 7, 7, 2, 2, 1, 7, 1, 7, 1, 7, 7] =
      (9, [(0, 0x38), (1, 0xF8), (3, 0x58), (5, 0x38), (6, 0xF8), (7, 0x38), (8, 0xF8),
           (9, 0x38), (10, 0xF8)]) := by
  refine ⟨attrStep_black, attrStep_same, ?_, by decide⟩
  intro row p
  simp only [encodeAttrRow]
  by_cases hcase : row.length ≤ (row.takeWhile (· == 7)).length
  · rw [if_pos hcase]
    intro hp
    rw [List.mem_singleton] at hp
    subst hp
    decide
  · rw [if_neg hcase]
    obtain ⟨c1, c2, c3⟩ := attrFold_spec row
      (List.range' (row.takeWhile (· == 7)).length
        (row.length - (row.takeWhile (· == 7)).length)) (-1, 0, [])
      (List.pairwise_lt_range' _ _) (by simp) rfl (by simp)
    by_cases hz : ((List.range' (row.takeWhile (· == 7)).length
        (row.length - (row.takeWhile (· == 7)).length)).foldl (attrStep row)
        (-1, 0, [])).2.1 = 0
    · rw [if_pos hz]
      intro hp
      rw [List.mem_singleton] at hp
      subst hp
      decide
    · rw [if_neg hz]
      intro hp
      rcases c3 p hp with h | ⟨_, hattr, hnz⟩
      · simp at h
      · rw [hattr]
        exact getAttributeColorCode_ne_black _ hnz

/-- Witness for C4: a black dot at position 0 of the row [0] leaves the
initial scan state untouched. -/
theorem C4_black_passthrough_witness :
    attrStep [0] (-1, 0, []) 0 = (-1, 0, []) :=
  C4_black_passthrough.1 [0] (-1, 0, []) 0 (by decide)

/-- Counterexample to claim C5 as stated: the all-white row [7] consists of
a single leading-white position, yet its encoding emits the fallback pair
at x = 0, so that leading-white position does appear as an x-coordinate. -/
theorem C5_counterexample :
    (encodeAttrRow [7]).2.map Prod.fst = [0] ∧ ([7].takeWhile (· == 7)).length = 1 := by
  decide

/-- Amended claim C5: for every row whose trimmed remainder contains a
non-black color (so the scan emits at least one pair and the count-1
fallback is not taken), no leading-white position appears as an
x-coordinate — every emitted x is at or after the trim point; the
five-element example row encodes exactly as claimed, trailing white
included. -/
theorem C5_leading_white_trim (row : List Nat) :
    ((∃ c ∈ row.drop (row.takeWhile (· == 7)).length, c ≠ 0) →
      ∀ p ∈ (encodeAttrRow row).2, (row.takeWhile (· == 7)).length ≤ p.1) ∧
    encodeAttrRow [7, 2, 1, 7, 7] = (3, [(1, 0x58), (2, 0x38), (3, 0xF8)]) := by
  refine ⟨?_, by decide⟩
  rintro ⟨c, hc, hc0⟩
  obtain ⟨j, hj, hjv⟩ := List.mem_iff_getElem.mp hc
  have hdl : (row.drop (row.takeWhile (· == 7)).length).length =
      row.length - (row.takeWhile (· == 7)).length := by simp
  have hx : (row.takeWhile (· == 7)).length + j < row.length := by omega
  have hgd : row.getD ((row.takeWhile (· == 7)).length + j) 0 ≠ 0 := by
    rw [List.getD_eq_getElem row 0 hx]
    have h1 : (row.drop (row.takeWhile (· == 7)).length)[j] =
        row[(row.takeWhile (· == 7)).length + j] := List.getElem_drop row
    rw [← h1, hjv]
    exact hc0
  have hslt : ¬ (row.length ≤ (row.takeWhile (· == 7)).length) := by omega
  have hpos : 1 ≤ ((List.range' (row.takeWhile (· == 7)).length
      (row.length - (row.takeWhile (· == 7)).length)).foldl (attrStep row)
      (-1, 0, [])).2.1 := by
    refine attrFold_pos row _ _ rfl ⟨(row.takeWhile (· == 7)).length + j, ?_, hgd⟩
    rw [List.mem_range'_1]
    omega
  obtain ⟨c1, c2, c3⟩ := attrFold_spec row
    (List.range' (row.takeWhile (· == 7)).length
      (row.length - (row.takeWhile (· == 7)).length)) (-1, 0, [])
    (List.pairwise_lt_range' _ _) (by simp) rfl (by simp)
  intro p hp
  simp only [encodeAttrRow] at hp
  rw [if_neg hslt, if_neg (by omega)] at hp
  rcases c3 p hp with h | ⟨hmem, _, _⟩
  · simp at h
  · exact (List.mem_range'_1.mp hmem).1

/-- Witness for C5 (amended) on the spec's example row: every emitted
x-coordinate is at or past the trim point 1. -/
theorem C5_leading_white_trim_witness :
    ∀ p ∈ (encodeAttrRow [7, 2, 1, 7, 7]).2,
      ([7, 2, 1, 7, 7].takeWhile (· == 7)).length ≤ p.1 :=
  (C5_leading_white_trim [7, 2, 1, 7, 7]).1 ⟨2, by decide, by decide⟩

/-- Claim C6: whenever everything after the leading-white prefix is black —
which covers both the entirely-white rows and the rows whose scan emits no
change pair, e.g. entirely black ones — the encoder emits the minimal
fallback (count 1, pair (0, 0xF8), the white attribute, never black). -/
theorem C6_fallback_line (row : List Nat) :
    ((∀ c ∈ row.drop (row.takeWhile (· == 7)).length, c = 0) →
      encodeAttrRow row = (1, [(0, 0xF8)])) ∧
    (∀ n, encodeAttrRow (List.replicate n 7) = (1, [(0, 0xF8)])) ∧
    (∀ n, encodeAttrRow (List.replicate n 0) = (1, [(0, 0xF8)])) ∧
    renderAttrLine (1, [(0, 0xF8)]) = "\tDB\t1, 0, $F8" := by
  have hmain : ∀ r : List Nat,
      (∀ c ∈ r.drop (r.takeWhile (· == 7)).length, c = 0) →
      encodeAttrRow r = (1, [(0, 0xF8)]) := by
    intro r h
    simp only [encodeAttrRow]
    by_cases hcase : r.length ≤ (r.takeWhile (· == 7)).length
    · rw [if_pos hcase]
    · rw [if_neg hcase]
      have hconst : (List.range' (r.takeWhile (· == 7)).length
          (r.length - (r.takeWhile (· == 7)).length)).foldl (attrStep r)
          ((-1 : Int), 0, []) = (-1, 0, []) := by
        refine attrFold_const r _ _ ?_
        intro x hx
        rw [List.mem_range'_1] at hx
        have hxlen : x < r.length := by omega
        rw [List.getD_eq_getElem r 0 hxlen]
        have hds : x - (r.takeWhile (· == 7)).length <
            (r.drop (r.takeWhile (· == 7)).length).length := by
          simp [List.length_drop]
          omega
        have hxs : (r.takeWhile (· == 7)).length +
            (x - (r.takeWhile (· == 7)).length) < r.length := by omega
        have h1 : (r.drop (r.takeWhile (· == 7)).length)[x - (r.takeWhile (· == 7)).length] =
            r[(r.takeWhile (· == 7)).length + (x - (r.takeWhile (· == 7)).length)] :=
          List.getElem_drop r
        have h2 : (r.takeWhile (· == 7)).length + (x - (r.takeWhile (· == 7)).length) = x := by
          omega
        simp only [h2] at h1
        exact h1.symm.trans (h _ (List.getElem_mem _))
      rw [hconst]
      simp
  refine ⟨hmain row, ?_, ?_, by decide⟩
  · intro n
    refine hmain _ ?_
    intro c hc
    have h7 : (List.replicate n (7 : Nat)).takeWhile (· == 7) = List.replicate n 7 := by
      induction n with
      | zero => rfl
      | succ k ih => simp [List.replicate_succ, List.takeWhile_cons, ih]
    rw [h7, List.drop_length] at hc
    simp at hc
  · intro n
    refine hmain _ ?_
    intro c hc
    exact List.eq_of_mem_replicate (List.drop_subset _ _ hc)

/-- Witness for C6 on an all-black and an all-white row. -/
theorem C6_fallback_line_witness :
    encodeAttrRow [0, 0, 0] = (1, [(0, 0xF8)]) ∧
    encodeAttrRow [7, 7] = (1, [(0, 0xF8)]) :=
  ⟨(C6_fallback_line [0, 0, 0]).1 (by decide), (C6_fallback_line [7, 7]).1 (by decide)⟩

/-- The number of chunks of a list of n elements is ceil(n/16), for any
sufficient fuel. -/
theorem chunks16Go_length (fuel : Nat) :
    ∀ l : List α, l.length ≤ fuel → (chunks16Go fuel l).length = (l.length + 15) / 16 := by
  induction fuel with
  | zero =>
    intro l h
    cases l with
    | nil => simp [chunks16Go]
    | cons x xs => simp at h
  | succ f ih =>
    intro l h
    cases l with
    | nil => simp [chunks16Go]
    | cons x xs =>
      simp only [chunks16Go, List.length_cons]
      rw [ih _ (by simp only [List.length_drop, List.length_cons] at h ⊢; omega)]
      simp [List.length_drop]
      omega

/-- Chunking never loses or reorders elements: the chunks concatenate back
to the original list. -/
theorem chunks16Go_join (fuel : Nat) :
    ∀ l : List α, l.length ≤ fuel → (chunks16Go fuel l).flatten = l := by
  induction fuel with
  | zero =>
    intro l h
    cases l with
    | nil => simp [chunks16Go]
    | cons x xs => simp at h
  | succ f ih =>
    intro l h
    cases l with
    | nil => simp [chunks16Go]
    | cons x xs =>
      simp only [chunks16Go, List.flatten_cons]
      rw [ih _ (by simp only [List.length_drop, List.length_cons] at h ⊢; omega)]
      exact List.take_append_drop 16 _

/-- Every chunk holds at most 16 elements. -/
theorem chunks16Go_le16 (fuel : Nat) :
    ∀ l : List α, l.length ≤ fuel → ∀ c ∈ chunks16Go fuel l, c.length ≤ 16 := by
  induction fuel with
  | zero =>
    intro l h c hc
    cases l with
    | nil => simp [chunks16Go] at hc
    | cons x xs => simp at h
  | succ f ih =>
    intro l h c hc
    cases l with
    | nil => simp [chunks16Go] at hc
    | cons x xs =>
      simp only [chunks16Go] at hc
      rcases List.mem_cons.mp hc with h1 | h1
      · subst h1; simp
      · exact ih _ (by simp only [List.length_drop, List.length_cons] at h ⊢; omega) c h1

/-- chunks16 in terms of its fuel-free specification. -/
theorem chunks16_length (l : List α) : (chunks16 l).length = (l.length + 15) / 16 :=
  chunks16Go_length l.length l (le_refl _)

/-- See chunks16Go_join. -/
theorem chunks16_join (l : List α) : (chunks16 l).flatten = l :=
  chunks16Go_join l.length l (le_refl _)

/-- See chunks16Go_le16. -/
theorem chunks16_le16 (l : List α) : ∀ c ∈ chunks16 l, c.length ≤ 16 :=
  chunks16Go_le16 l.length l (le_refl _)

/-- A 1-row grid of 20 blank blocks, for the spec's chunking example. -/
def grid20 : SemiGraphicData := ⟨20, 1, [List.replicate 20 ⟨0, 0⟩]⟩

/-- Claim C9: the pattern table has one byte per block, row-major, in
chunks of at most 16 per DB line, chunking restarting at every grid row
(so the line count is the per-row sum of ceil(width/16), no remainder
carried); chunks concatenate back to the row, each holding at most 16
bytes; a single row of 20 blocks yields exactly 2 data lines of 16 and 4
values. -/
theorem C9_pattern_table_chunking :
    (∀ (semiData : SemiGraphicData) (label : String),
      (generateSemiGraphicDB semiData label).length =
        2 + ((List.range semiData.height).map
          (fun y => ((semiData.blocks.getD y []).length + 15) / 16)).sum) ∧
    (∀ l : List String, (chunks16 l).flatten = l ∧ ∀ c ∈ chunks16 l, c.length ≤ 16) ∧
    generateSemiGraphicDB grid20 "Image_000" =
      ["; セミグラフィックデータ (20x1)", "Image_000:",
       "\tDB\t$00, $00, $00, $00, $00, $00, $00, $00, $00, $00, $00, $00, $00, $00, $00, $00",
       "\tDB\t$00, $00, $00, $00"] := by
  refine ⟨?_, fun l => ⟨chunks16_join l, chunks16_le16 l⟩, by decide⟩
  intro semiData label
  simp [generateSemiGraphicDB, List.length_flatMap, Function.comp_def, chunks16_length]
  omega

/-- The exact condition under which convertImageDataToSemiGraphic sets the
pattern bit of a dot: in-range, opaque (alpha ≥ 128), and nearest color
non-black. -/
def setBitData (img : ImageData) (x y : Nat) (c : Nat × Nat) : Bool :=
  decide (x * 2 + c.1 < img.width) && decide (y * 4 + c.2 < img.height) &&
  decide (128 ≤ img.data (pixIdx img (x * 2 + c.1) (y * 4 + c.2) + 3)) &&
  decide (findNearestColor ⟨img.data (pixIdx img (x * 2 + c.1) (y * 4 + c.2)),
    img.data (pixIdx img (x * 2 + c.1) (y * 4 + c.2) + 1),
    img.data (pixIdx img (x * 2 + c.1) (y * 4 + c.2) + 2)⟩ ≠ 0)

/-- The exact condition under which generateSemiGraphicBlockFromJimp sets
the pattern bit of a dot: in-range and opaque (alpha > 127) — no color
condition. -/
def setBitJimp (img : ImageData) (x y : Nat) (c : Nat × Nat) : Bool :=
  decide (x * 2 + c.1 < img.width) && decide (y * 4 + c.2 < img.height) &&
  decide (127 < img.data (pixIdx img (x * 2 + c.1) (y * 4 + c.2) + 3))

/-- Pattern action of one ImageData-path dot. -/
theorem imgDataStep_pattern (img : ImageData) (x y : Nat) (st : Nat × List Nat)
    (c : Nat × Nat) :
    (imgDataStep img x y st c).1 =
      if setBitData img x y c then st.1 ||| (1 <<< bitIndex c.1 c.2) else st.1 := by
  simp only [imgDataStep, setBitData]
  by_cases h1 : x * 2 + c.1 < img.width ∧ y * 4 + c.2 < img.height
  · rw [if_pos h1]
    by_cases h2 : img.data (pixIdx img (x * 2 + c.1) (y * 4 + c.2) + 3) < 128
    · have hb : (decide (x * 2 + c.1 < img.width) && decide (y * 4 + c.2 < img.height) &&
          decide (128 ≤ img.data (pixIdx img (x * 2 + c.1) (y * 4 + c.2) + 3)) &&
          decide (findNearestColor ⟨img.data (pixIdx img (x * 2 + c.1) (y * 4 + c.2)),
            img.data (pixIdx img (x * 2 + c.1) (y * 4 + c.2) + 1),
            img.data (pixIdx img (x * 2 + c.1) (y * 4 + c.2) + 2)⟩ ≠ 0)) = false := by
        have : ¬ (128 ≤ img.data (pixIdx img (x * 2 + c.1) (y * 4 + c.2) + 3)) := by omega
        simp [this]
      rw [if_pos h2, if_neg (fun hT => Bool.false_ne_true (hb.symm.trans hT))]
    · rw [if_neg h2]
      by_cases h3 : findNearestColor ⟨img.data (pixIdx img (x * 2 + c.1) (y * 4 + c.2)),
          img.data (pixIdx img (x * 2 + c.1) (y * 4 + c.2) + 1),
          img.data (pixIdx img (x * 2 + c.1) (y * 4 + c.2) + 2)⟩ ≠ 0
      · have hb : (decide (x * 2 + c.1 < img.width) && decide (y * 4 + c.2 < img.height) &&
            decide (128 ≤ img.data (pixIdx img (x * 2 + c.1) (y * 4 + c.2) + 3)) &&
            decide (findNearestColor ⟨img.data (pixIdx img (x * 2 + c.1) (y * 4 + c.2)),
              img.data (pixIdx img (x * 2 + c.1) (y * 4 + c.2) + 1),
              img.data (pixIdx img (x * 2 + c.1) (y * 4 + c.2) + 2)⟩ ≠ 0)) = true := by
          simp [h1.1, h1.2, h3]
          omega
        rw [if_pos h3, if_pos hb]
      · have hb : (decide (x * 2 + c.1 < img.width) && decide (y * 4 + c.2 < img.height) &&
            decide (128 ≤ img.data (pixIdx img (x * 2 + c.1) (y * 4 + c.2) + 3)) &&
            decide (findNearestColor ⟨img.data (pixIdx img (x * 2 + c.1) (y * 4 + c.2)),
              img.data (pixIdx img (x * 2 + c.1) (y * 4 + c.2) + 1),
              img.data (pixIdx img (x * 2 + c.1) (y * 4 + c.2) + 2)⟩ ≠ 0)) = false := by
          simp [h3]
        rw [if_neg h3, if_neg (fun hT => Bool.false_ne_true (hb.symm.trans hT))]
  · have hb : (decide (x * 2 + c.1 < img.width) && decide (y * 4 + c.2 < img.height) &&
        decide (128 ≤ img.data (pixIdx img (x * 2 + c.1) (y * 4 + c.2) + 3)) &&
        decide (findNearestColor ⟨img.data (pixIdx img (x * 2 + c.1) (y * 4 + c.2)),
          img.data (pixIdx img (x * 2 + c.1) (y * 4 + c.2) + 1),
          img.data (pixIdx img (x * 2 + c.1) (y * 4 + c.2) + 2)⟩ ≠ 0)) = false := by
      rcases Decidable.not_and_iff_or_not.mp h1 with h | h <;> simp [h]
    rw [if_neg h1, if_neg (fun hT => Bool.false_ne_true (hb.symm.trans hT))]

/-- Pattern action of one Jimp-path dot. -/
theorem jimpStep_pattern (img : ImageData) (x y : Nat) (st : Nat × List Nat)
    (c : Nat × Nat) :
    (jimpStep img x y st c).1 =
      if setBitJimp img x y c then st.1 ||| (1 <<< bitIndex c.1 c.2) else st.1 := by
  simp only [jimpStep, setBitJimp]
  by_cases h1 : img.width ≤ x * 2 + c.1 ∨ img.height ≤ y * 4 + c.2
  · have hb : (decide (x * 2 + c.1 < img.width) && decide (y * 4 + c.2 < img.height) &&
        decide (127 < img.data (pixIdx img (x * 2 + c.1) (y * 4 + c.2) + 3))) = false := by
      rcases h1 with h | h
      · simp [Nat.not_lt.mpr h]
      · simp [Nat.not_lt.mpr h]
    rw [if_pos h1, if_neg (fun hT => Bool.false_ne_true (hb.symm.trans hT))]
  · rw [if_neg h1]
    by_cases h2 : 127 < img.data (pixIdx img (x * 2 + c.1) (y * 4 + c.2) + 3)
    · have hb : (decide (x * 2 + c.1 < img.width) && decide (y * 4 + c.2 < img.height) &&
          decide (127 < img.data (pixIdx img (x * 2 + c.1) (y * 4 + c.2) + 3))) = true := by
        simp [h2]
        omega
      rw [if_pos h2, if_pos hb]
    · have hb : (decide (x * 2 + c.1 < img.width) && decide (y * 4 + c.2 < img.height) &&
          decide (127 < img.data (pixIdx img (x * 2 + c.1) (y * 4 + c.2) + 3))) = false := by
        simp [h2]
      rw [if_neg h2, if_neg (fun hT => Bool.false_ne_true (hb.symm.trans hT))]

/-- testBit through a fold whose pattern action OR-accumulates single bits:
bit b of the final pattern is bit b of the initial one, or some processed
dot with bit index b satisfied the set condition. -/
theorem testBit_orFold (cond : Nat × Nat → Bool)
    (step : (Nat × List Nat) → (Nat × Nat) → (Nat × List Nat))
    (hstep : ∀ st c, (step st c).1 =
      if cond c then st.1 ||| (1 <<< bitIndex c.1 c.2) else st.1) :
    ∀ (l : List (Nat × Nat)) (st : Nat × List Nat) (b : Nat),
      Nat.testBit (l.foldl step st).1 b =
        (Nat.testBit st.1 b || l.any fun c => cond c && (bitIndex c.1 c.2 == b)) := by
  intro l
  induction l with
  | nil => intro st b; simp
  | cons c0 rest ih =>
    intro st b
    simp only [List.foldl_cons, List.any_cons]
    rw [ih]
    have h1 : Nat.testBit (step st c0).1 b =
        (Nat.testBit st.1 b || (cond c0 && (bitIndex c0.1 c0.2 == b))) := by
      rw [hstep]
      by_cases hc : cond c0 = true
      · rw [if_pos hc, hc]
        rw [Nat.shiftLeft_eq, one_mul, Nat.testBit_or, Nat.testBit_two_pow]
        by_cases hbeq : bitIndex c0.1 c0.2 = b <;> simp [hbeq]
      · have hcf : cond c0 = false := Bool.eq_false_iff.mpr hc
        rw [if_neg hc, hcf]
        simp
    rw [h1, Bool.or_assoc]

/-- Over the 8 dot offsets, exactly one dot carries a given in-range bit
index, so the OR-accumulation test collapses to that dot's set condition. -/
theorem any_cellList_bit (f : Nat × Nat → Bool) (dx dy : Nat) (hdx : dx < 2) (hdy : dy < 4) :
    (cellList.any fun c => f c && (bitIndex c.1 c.2 == bitIndex dx dy)) = f (dx, dy) := by
  interval_cases dx <;> interval_cases dy <;> simp [cellList, bitIndex]

/-- When an opaque pixel is white, the ImageData-path set condition
collapses to in-range-and-opaque (white quantizes to palette index 7 ≠ 0). -/
theorem setBitData_white_iff (img : ImageData) (x y dx dy : Nat)
    (hw : x * 2 + dx < img.width → y * 4 + dy < img.height →
      128 ≤ img.data (pixIdx img (x * 2 + dx) (y * 4 + dy) + 3) →
      img.data (pixIdx img (x * 2 + dx) (y * 4 + dy)) = 255 ∧
      img.data (pixIdx img (x * 2 + dx) (y * 4 + dy) + 1) = 255 ∧
      img.data (pixIdx img (x * 2 + dx) (y * 4 + dy) + 2) = 255) :
    (setBitData img x y (dx, dy) = true) ↔
      (x * 2 + dx < img.width ∧ y * 4 + dy < img.height ∧
       128 ≤ img.data (pixIdx img (x * 2 + dx) (y * 4 + dy) + 3)) := by
  simp only [setBitData, Bool.and_eq_true, decide_eq_true_eq]
  constructor
  · rintro ⟨⟨⟨h1, h2⟩, h3⟩, _⟩
    exact ⟨h1, h2, h3⟩
  · rintro ⟨h1, h2, h3⟩
    obtain ⟨hr, hg, hb⟩ := hw h1 h2 h3
    refine ⟨⟨⟨h1, h2⟩, h3⟩, ?_⟩
    rw [hr, hg, hb]
    decide

set_option maxHeartbeats 2000000 in
/-- Claim C1: in the ImageData path, for any block whose opaque pixels are
white, bit `bitIndex dx dy` of the pattern is set exactly when the dot
(dx, dy) is in range and opaque (alpha ≥ 128); consequently, over a 2x4
all-white image whose opacity mask is m (dot (dx,dy) opaque iff bit
`bitIndex dx dy` of m is set, covering 0xFF, 0xCC, 0x33, 0x0F, 0xF0 and
every single-dot mask), the converted pattern is exactly m. -/
theorem C1_bit_placement :
    (∀ (img : ImageData) (x y dx dy : Nat), dx < 2 → dy < 4 →
      (∀ dx2, dx2 < 2 → ∀ dy2, dy2 < 4 →
        x * 2 + dx2 < img.width → y * 4 + dy2 < img.height →
        128 ≤ img.data (pixIdx img (x * 2 + dx2) (y * 4 + dy2) + 3) →
        img.data (pixIdx img (x * 2 + dx2) (y * 4 + dy2)) = 255 ∧
        img.data (pixIdx img (x * 2 + dx2) (y * 4 + dy2) + 1) = 255 ∧
        img.data (pixIdx img (x * 2 + dx2) (y * 4 + dy2) + 2) = 255) →
      (Nat.testBit (imgDataBlock img x y).pattern (bitIndex dx dy) = true ↔
        (x * 2 + dx < img.width ∧ y * 4 + dy < img.height ∧
         128 ≤ img.data (pixIdx img (x * 2 + dx) (y * 4 + dy) + 3)))) ∧
    (∀ m, m < 256 → (convertImageDataToSemiGraphic (whiteMaskImage m)).blocks =
      [[⟨m, if m = 0 then 0 else 7⟩]]) := by
  constructor
  · intro img x y dx dy hdx hdy hwhite
    have hpat : (imgDataBlock img x y).pattern =
        (cellList.foldl (imgDataStep img x y) (0, [])).1 := rfl
    rw [hpat, testBit_orFold (setBitData img x y) _ (imgDataStep_pattern img x y),
      any_cellList_bit (setBitData img x y) dx dy hdx hdy]
    simp only [Nat.zero_testBit, Bool.false_or]
    exact setBitData_white_iff img x y dx dy (hwhite dx hdx dy hdy)
  · decide

/-- Witness for C1 on the fully opaque white block: bit 1 (left column,
second row) is set, the dot being in range and opaque. -/
theorem C1_bit_placement_witness :
    Nat.testBit (imgDataBlock (whiteMaskImage 255) 0 0).pattern (bitIndex 0 1) = true ↔
      (0 * 2 + 0 < (whiteMaskImage 255).width ∧ 0 * 4 + 1 < (whiteMaskImage 255).height ∧
       128 ≤ (whiteMaskImage 255).data
         (pixIdx (whiteMaskImage 255) (0 * 2 + 0) (0 * 4 + 1) + 3)) :=
  C1_bit_placement.1 (whiteMaskImage 255) 0 0 0 1 (by decide) (by decide)
    (by intro dx2 hdx2 dy2 hdy2 h1 h2 h3
        interval_cases dx2 <;> interval_cases dy2 <;> exact (by decide))

/-- The Jimp-path set condition is in-range-and-opaque, with no color
condition at all. -/
theorem setBitJimp_iff (img : ImageData) (x y dx dy : Nat) :
    (setBitJimp img x y (dx, dy) = true) ↔
      (x * 2 + dx < img.width ∧ y * 4 + dy < img.height ∧
       127 < img.data (pixIdx img (x * 2 + dx) (y * 4 + dy) + 3)) := by
  simp [setBitJimp, Bool.and_eq_true, decide_eq_true_eq, and_assoc]

/-- Vote action of one ImageData-path dot: exactly one vote is appended,
either black (0) or, for an in-range opaque dot, the nearest color. -/
theorem imgDataStep_votes (img : ImageData) (x y : Nat) (st : Nat × List Nat)
    (c : Nat × Nat) :
    ∃ v, (imgDataStep img x y st c).2 = st.2 ++ [v] ∧
      (v = 0 ∨ (x * 2 + c.1 < img.width ∧ y * 4 + c.2 < img.height ∧
        128 ≤ img.data (pixIdx img (x * 2 + c.1) (y * 4 + c.2) + 3) ∧
        v = findNearestColor ⟨img.data (pixIdx img (x * 2 + c.1) (y * 4 + c.2)),
          img.data (pixIdx img (x * 2 + c.1) (y * 4 + c.2) + 1),
          img.data (pixIdx img (x * 2 + c.1) (y * 4 + c.2) + 2)⟩)) := by
  simp only [imgDataStep]
  by_cases h1 : x * 2 + c.1 < img.width ∧ y * 4 + c.2 < img.height
  · rw [if_pos h1]
    by_cases h2 : img.data (pixIdx img (x * 2 + c.1) (y * 4 + c.2) + 3) < 128
    · rw [if_pos h2]
      exact ⟨0, rfl, Or.inl rfl⟩
    · rw [if_neg h2]
      by_cases h3 : findNearestColor ⟨img.data (pixIdx img (x * 2 + c.1) (y * 4 + c.2)),
          img.data (pixIdx img (x * 2 + c.1) (y * 4 + c.2) + 1),
          img.data (pixIdx img (x * 2 + c.1) (y * 4 + c.2) + 2)⟩ ≠ 0
      · rw [if_pos h3]
        exact ⟨_, rfl, Or.inr ⟨h1.1, h1.2, by omega, rfl⟩⟩
      · rw [if_neg h3]
        exact ⟨_, rfl, Or.inr ⟨h1.1, h1.2, by omega, rfl⟩⟩
  · rw [if_neg h1]
    exact ⟨0, rfl, Or.inl rfl⟩

/-- An all-zero vote list elects black. -/
theorem getMostFrequentColor_all_zero (l : List Nat) (h : ∀ v ∈ l, v = 0) :
    getMostFrequentColor l = 0 := by
  rw [getMostFrequentColor_eq_fold]
  obtain ⟨s1, s2, s3, s4⟩ := freqFold_spec l [1, 2, 3, 4, 5, 6, 7] (0, 0)
    (by simp [List.pairwise_cons]) (by intro c hc; simp at hc; omega)
  have hcnt : ∀ c ∈ ([1, 2, 3, 4, 5, 6, 7] : List Nat), l.count c = 0 := by
    intro c hc
    refine List.count_eq_zero.mpr fun hmem => ?_
    have := h c hmem
    simp at hc
    omega
  rcases s3 with h1 | ⟨hmem, heq, hgt⟩
  · rw [h1]
  · rw [hcnt _ hmem] at heq
    omega

/-- If every in-range opaque dot of the block quantizes to black, all votes
recorded along the ImageData scan are black. -/
theorem imgData_votes_zero (img : ImageData) (x y : Nat)
    (hv : ∀ dx, dx < 2 → ∀ dy, dy < 4 →
      x * 2 + dx < img.width → y * 4 + dy < img.height →
      128 ≤ img.data (pixIdx img (x * 2 + dx) (y * 4 + dy) + 3) →
      findNearestColor ⟨img.data (pixIdx img (x * 2 + dx) (y * 4 + dy)),
        img.data (pixIdx img (x * 2 + dx) (y * 4 + dy) + 1),
        img.data (pixIdx img (x * 2 + dx) (y * 4 + dy) + 2)⟩ = 0) :
    ∀ l : List (Nat × Nat), (∀ c ∈ l, c.1 < 2 ∧ c.2 < 4) →
      ∀ st : Nat × List Nat, (∀ v ∈ st.2, v = 0) →
      ∀ v ∈ (l.foldl (imgDataStep img x y) st).2, v = 0 := by
  intro l
  induction l with
  | nil => intro _ st hst; exact hst
  | cons c0 rest ih =>
    intro hcells st hst
    simp only [List.foldl_cons]
    obtain ⟨v0, hv0eq, hv0⟩ := imgDataStep_votes img x y st c0
    refine ih (fun c hc => hcells c (List.mem_cons_of_mem _ hc)) _ ?_
    intro v hvmem
    rw [hv0eq] at hvmem
    rcases List.mem_append.mp hvmem with h | h
    · exact hst v h
    · rw [List.mem_singleton] at h
      subst h
      rcases hv0 with h | ⟨h1, h2, h3, h4⟩
      · exact h
      · rw [h4]
        obtain ⟨hc1, hc2⟩ := hcells c0 (List.mem_cons_self ..)
        exact hv c0.1 hc1 c0.2 hc2 h1 h2 h3

/-- When a dot's nearest color would be black wherever it is in range and
opaque, the ImageData-path set condition fails. -/
theorem setBitData_eq_false_of_black (img : ImageData) (x y dx dy : Nat)
    (hb : x * 2 + dx < img.width → y * 4 + dy < img.height →
      128 ≤ img.data (pixIdx img (x * 2 + dx) (y * 4 + dy) + 3) →
      findNearestColor ⟨img.data (pixIdx img (x * 2 + dx) (y * 4 + dy)),
        img.data (pixIdx img (x * 2 + dx) (y * 4 + dy) + 1),
        img.data (pixIdx img (x * 2 + dx) (y * 4 + dy) + 2)⟩ = 0) :
    setBitData img x y (dx, dy) = false := by
  refine Bool.eq_false_iff.mpr fun hT => ?_
  simp only [setBitData, Bool.and_eq_true, decide_eq_true_eq] at hT
  exact hT.2 (hb hT.1.1.1 hT.1.1.2 hT.1.2)

/-- A block whose in-range opaque pixels all quantize to black converts, in
the ImageData path, to pattern 0 with color code 0. -/
theorem imgDataBlock_black (img : ImageData) (x y : Nat)
    (hb : ∀ dx, dx < 2 → ∀ dy, dy < 4 →
      x * 2 + dx < img.width → y * 4 + dy < img.height →
      128 ≤ img.data (pixIdx img (x * 2 + dx) (y * 4 + dy) + 3) →
      findNearestColor ⟨img.data (pixIdx img (x * 2 + dx) (y * 4 + dy)),
        img.data (pixIdx img (x * 2 + dx) (y * 4 + dy) + 1),
        img.data (pixIdx img (x * 2 + dx) (y * 4 + dy) + 2)⟩ = 0) :
    imgDataBlock img x y = ⟨0, 0⟩ := by
  have hpat : (imgDataBlock img x y).pattern = 0 := by
    refine Nat.eq_of_testBit_eq fun i => ?_
    have hp : (imgDataBlock img x y).pattern =
        (cellList.foldl (imgDataStep img x y) (0, [])).1 := rfl
    rw [hp, testBit_orFold (setBitData img x y) _ (imgDataStep_pattern img x y)]
    simp only [Nat.zero_testBit, Bool.false_or]
    refine List.any_eq_false.mpr ?_
    intro c hc
    have hcb : c.1 < 2 ∧ c.2 < 4 := by fin_cases hc <;> exact ⟨by decide, by decide⟩
    have hfalse : setBitData img x y c = false := by
      rw [← @Prod.mk.eta _ _ c]
      exact setBitData_eq_false_of_black img x y c.1 c.2 (hb c.1 hcb.1 c.2 hcb.2)
    simp [hfalse]
  have hcol : (imgDataBlock img x y).colorCode = 0 := by
    refine getMostFrequentColor_all_zero _ ?_
    exact imgData_votes_zero img x y hb cellList (by decide) (0, []) (by simp)
  have hsplit : imgDataBlock img x y =
      ⟨(imgDataBlock img x y).pattern, (imgDataBlock img x y).colorCode⟩ := rfl
  rw [hsplit, hpat, hcol]

/-- A dot that is transparent wherever it is in range leaves the Jimp scan
state untouched. -/
theorem jimpStep_id_of_transparent (img : ImageData) (x y : Nat)
    (st : Nat × List Nat) (c : Nat × Nat)
    (h : x * 2 + c.1 < img.width → y * 4 + c.2 < img.height →
      img.data (pixIdx img (x * 2 + c.1) (y * 4 + c.2) + 3) < 128) :
    jimpStep img x y st c = st := by
  simp only [jimpStep]
  by_cases h1 : img.width ≤ x * 2 + c.1 ∨ img.height ≤ y * 4 + c.2
  · rw [if_pos h1]
  · rw [if_neg h1]
    push_neg at h1
    rw [if_neg (by have := h (by omega) (by omega); omega)]

/-- A generic fold over steps that fix every state. -/
theorem foldl_fixed {α β : Type} (step : α → β → α) (l : List β) :
    ∀ st : α, (∀ (st2 : α) (c : β), c ∈ l → step st2 c = st2) → l.foldl step st = st := by
  induction l with
  | nil => intro st _; rfl
  | cons c0 rest ih =>
    intro st h
    simp only [List.foldl_cons]
    rw [h st c0 (List.mem_cons_self ..)]
    exact ih st fun st2 c hc => h st2 c (List.mem_cons_of_mem _ hc)

/-- Counterexample to claim C3 as stated: in allBlackImage every one of the
8 pixels is opaque (alpha 255), so an alpha-only rule would set every
pattern bit; yet convertImageDataToSemiGraphic, which suppresses bits of
opaque pixels whose nearest color is black, produces pattern 0x00. -/
theorem C3_counterexample :
    (∀ i, i < 8 → allBlackImage.data (4 * i + 3) = 255) ∧
    (convertImageDataToSemiGraphic allBlackImage).blocks = [[⟨0x00, 0⟩]] := by
  constructor
  · decide
  · decide

/-- Amended claim C3: in the Jimp path the pattern bit is alpha-only
(set iff in range and alpha > 127, regardless of color); in the ImageData
path a block whose in-range opaque pixels all quantize to black gets
pattern 0x00 (bits are additionally color-gated) and color code 0; a fully
transparent block yields pattern 0x00 and color code 0 in both paths. -/
theorem C3_alpha_pattern :
    (∀ (img : ImageData) (x y dx dy : Nat), dx < 2 → dy < 4 →
      (Nat.testBit (jimpBlock img x y).pattern (bitIndex dx dy) = true ↔
        (x * 2 + dx < img.width ∧ y * 4 + dy < img.height ∧
         127 < img.data (pixIdx img (x * 2 + dx) (y * 4 + dy) + 3)))) ∧
    (∀ (img : ImageData) (x y : Nat),
      (∀ dx, dx < 2 → ∀ dy, dy < 4 →
        x * 2 + dx < img.width → y * 4 + dy < img.height →
        128 ≤ img.data (pixIdx img (x * 2 + dx) (y * 4 + dy) + 3) →
        findNearestColor ⟨img.data (pixIdx img (x * 2 + dx) (y * 4 + dy)),
          img.data (pixIdx img (x * 2 + dx) (y * 4 + dy) + 1),
          img.data (pixIdx img (x * 2 + dx) (y * 4 + dy) + 2)⟩ = 0) →
      imgDataBlock img x y = ⟨0, 0⟩) ∧
    (∀ (img : ImageData) (x y : Nat),
      (∀ dx, dx < 2 → ∀ dy, dy < 4 →
        x * 2 + dx < img.width → y * 4 + dy < img.height →
        img.data (pixIdx img (x * 2 + dx) (y * 4 + dy) + 3) < 128) →
      jimpBlock img x y = ⟨0, 0⟩ ∧ imgDataBlock img x y = ⟨0, 0⟩) := by
  refine ⟨?_, ?_, ?_⟩
  · intro img x y dx dy hdx hdy
    have hpat : (jimpBlock img x y).pattern =
        (cellList.foldl (jimpStep img x y) (0, [])).1 := rfl
    rw [hpat, testBit_orFold (setBitJimp img x y) _ (jimpStep_pattern img x y),
      any_cellList_bit (setBitJimp img x y) dx dy hdx hdy]
    simp only [Nat.zero_testBit, Bool.false_or]
    exact setBitJimp_iff img x y dx dy
  · intro img x y hb
    exact imgDataBlock_black img x y hb
  · intro img x y ht
    constructor
    · have hfold : cellList.foldl (jimpStep img x y) (0, []) = (0, []) := by
        refine foldl_fixed _ _ _ fun st2 c hc => ?_
        have hcb : c.1 < 2 ∧ c.2 < 4 := by fin_cases hc <;> exact ⟨by decide, by decide⟩
        exact jimpStep_id_of_transparent img x y st2 c
          (fun h1 h2 => ht c.1 hcb.1 c.2 hcb.2 h1 h2)
      have hshape : jimpBlock img x y =
          ⟨(cellList.foldl (jimpStep img x y) (0, [])).1,
           getMostFrequentColor (cellList.foldl (jimpStep img x y) (0, [])).2⟩ := rfl
      rw [hshape, hfold]
      rfl
    · refine imgDataBlock_black img x y fun dx hdx dy hdy h1 h2 h3 => ?_
      have := ht dx hdx dy hdy h1 h2
      omega

/-- Witness for C3 (amended) on the all-black opaque 2x4 image: the
ImageData path yields the empty pattern and black color code. -/
theorem C3_alpha_pattern_witness :
    imgDataBlock allBlackImage 0 0 = ⟨0, 0⟩ :=
  C3_alpha_pattern.2.1 allBlackImage 0 0
    (by intro dx hdx dy hdy h1 h2 h3
        interval_cases dx <;> interval_cases dy <;> exact (by decide))

/-- The maximum scan only looks at the counts of the non-black colors, so
two vote lists with equal non-black counts elect the same color (the black
padding votes the ImageData path records for transparent and out-of-range
dots are invisible to it). -/
theorem getMostFrequentColor_count_congr (l1 l2 : List Nat)
    (h : ∀ v : Nat, v ≠ 0 → l1.count v = l2.count v) :
    getMostFrequentColor l1 = getMostFrequentColor l2 := by
  rw [getMostFrequentColor_eq_fold, getMostFrequentColor_eq_fold]
  simp only [List.foldl_cons, List.foldl_nil, freqStep]
  rw [h 1 (by omega), h 2 (by omega), h 3 (by omega), h 4 (by omega), h 5 (by omega),
    h 6 (by omega), h 7 (by omega)]

/-- Both conversion paths record the same non-black votes dot by dot: an
in-range opaque dot votes its nearest color in both, and the dots where
they differ (transparent or out-of-range) add only black votes on the
ImageData side and nothing on the Jimp side. -/
theorem votesCount_fold (img : ImageData) (x y : Nat) :
    ∀ (l : List (Nat × Nat)) (st1 st2 : Nat × List Nat),
      (∀ v : Nat, v ≠ 0 → st1.2.count v = st2.2.count v) →
      ∀ v : Nat, v ≠ 0 →
        (l.foldl (jimpStep img x y) st1).2.count v =
        (l.foldl (imgDataStep img x y) st2).2.count v := by
  intro l
  induction l with
  | nil => intro st1 st2 h v hv; exact h v hv
  | cons c0 rest ih =>
    intro st1 st2 h v hv
    simp only [List.foldl_cons]
    refine ih _ _ ?_ v hv
    intro w hw
    by_cases h1 : x * 2 + c0.1 < img.width ∧ y * 4 + c0.2 < img.height
    · have hg : ¬ (img.width ≤ x * 2 + c0.1 ∨ img.height ≤ y * 4 + c0.2) := by omega
      by_cases h2 : img.data (pixIdx img (x * 2 + c0.1) (y * 4 + c0.2) + 3) < 128
      · have hj : jimpStep img x y st1 c0 = st1 := by
          simp only [jimpStep]
          rw [if_neg hg, if_neg (by omega)]
        have hi : (imgDataStep img x y st2 c0).2 = st2.2 ++ [0] := by
          simp only [imgDataStep]
          rw [if_pos h1, if_pos h2]
        rw [hj, hi, List.count_append]
        have h0 : ([0] : List Nat).count w = 0 := List.count_eq_zero.mpr (by simp [hw])
        rw [h0, h w hw]
        omega
      · have hj : (jimpStep img x y st1 c0).2 =
            st1.2 ++ [findNearestColor ⟨img.data (pixIdx img (x * 2 + c0.1) (y * 4 + c0.2)),
              img.data (pixIdx img (x * 2 + c0.1) (y * 4 + c0.2) + 1),
              img.data (pixIdx img (x * 2 + c0.1) (y * 4 + c0.2) + 2)⟩] := by
          simp only [jimpStep]
          rw [if_neg hg, if_pos (by omega)]
        have hi : (imgDataStep img x y st2 c0).2 =
            st2.2 ++ [findNearestColor ⟨img.data (pixIdx img (x * 2 + c0.1) (y * 4 + c0.2)),
              img.data (pixIdx img (x * 2 + c0.1) (y * 4 + c0.2) + 1),
              img.data (pixIdx img (x * 2 + c0.1) (y * 4 + c0.2) + 2)⟩] := by
          simp only [imgDataStep]
          rw [if_pos h1, if_neg h2]
          split_ifs <;> rfl
        rw [hj, hi, List.count_append, List.count_append, h w hw]
    · have hg : img.width ≤ x * 2 + c0.1 ∨ img.height ≤ y * 4 + c0.2 := by omega
      have hj : jimpStep img x y st1 c0 = st1 := by
        simp only [jimpStep]
        rw [if_pos hg]
      have hi : (imgDataStep img x y st2 c0).2 = st2.2 ++ [0] := by
        simp only [imgDataStep]
        rw [if_neg h1]
      rw [hj, hi, List.count_append]
      have h0 : ([0] : List Nat).count w = 0 := List.count_eq_zero.mpr (by simp [hw])
      rw [h0, h w hw]
      omega

/-- Under the no-opaque-black-pixel hypothesis the two set conditions
coincide, so the two paths accumulate identical patterns. -/
theorem pattern_fold_eq (img : ImageData) (x y : Nat)
    (H : ∀ px, px < img.width → ∀ py, py < img.height →
      127 < img.data (pixIdx img px py + 3) →
      findNearestColor ⟨img.data (pixIdx img px py), img.data (pixIdx img px py + 1),
        img.data (pixIdx img px py + 2)⟩ ≠ 0) :
    ∀ (l : List (Nat × Nat)) (st1 st2 : Nat × List Nat), st1.1 = st2.1 →
      (l.foldl (jimpStep img x y) st1).1 = (l.foldl (imgDataStep img x y) st2).1 := by
  intro l
  induction l with
  | nil => intro st1 st2 h; exact h
  | cons c0 rest ih =>
    intro st1 st2 h
    simp only [List.foldl_cons]
    refine ih _ _ ?_
    rw [jimpStep_pattern, imgDataStep_pattern]
    have hset : setBitJimp img x y c0 = setBitData img x y c0 := by
      by_cases hbj : setBitJimp img x y c0 = true
      · rw [hbj]
        symm
        obtain ⟨h1, h2, h3⟩ := (setBitJimp_iff img x y c0.1 c0.2).mp hbj
        simp only [setBitData, Bool.and_eq_true, decide_eq_true_eq]
        exact ⟨⟨⟨h1, h2⟩, by omega⟩, H _ h1 _ h2 h3⟩
      · have hbjf : setBitJimp img x y c0 = false := Bool.eq_false_iff.mpr hbj
        rw [hbjf]
        symm
        refine Bool.eq_false_iff.mpr fun hT => ?_
        simp only [setBitData, Bool.and_eq_true, decide_eq_true_eq] at hT
        refine hbj ?_
        simp only [setBitJimp, Bool.and_eq_true, decide_eq_true_eq]
        exact ⟨⟨hT.1.1.1, hT.1.1.2⟩, by omega⟩
    rw [hset, h]

/-- Under the no-opaque-black-pixel hypothesis every block converts
identically along the two paths. -/
theorem block_eq_of_noblack (img : ImageData) (x y : Nat)
    (H : ∀ px, px < img.width → ∀ py, py < img.height →
      127 < img.data (pixIdx img px py + 3) →
      findNearestColor ⟨img.data (pixIdx img px py), img.data (pixIdx img px py + 1),
        img.data (pixIdx img px py + 2)⟩ ≠ 0) :
    jimpBlock img x y = imgDataBlock img x y := by
  have hp := pattern_fold_eq img x y H cellList (0, []) (0, []) rfl
  have hc : getMostFrequentColor (cellList.foldl (jimpStep img x y) (0, [])).2 =
      getMostFrequentColor (cellList.foldl (imgDataStep img x y) (0, [])).2 :=
    getMostFrequentColor_count_congr _ _ fun v hv =>
      votesCount_fold img x y cellList (0, []) (0, []) (fun _ _ => rfl) v hv
  have hshape : jimpBlock img x y =
      ⟨(cellList.foldl (jimpStep img x y) (0, [])).1,
       getMostFrequentColor (cellList.foldl (jimpStep img x y) (0, [])).2⟩ := rfl
  rw [hshape, hp, hc]
  rfl

/-- Counterexample to claim C2 as stated: on the all-black opaque 2x4 image
the Jimp path produces pattern 0xFF while the direct-buffer path produces
pattern 0x00, so the two entry points are not equivalent. -/
theorem C2_counterexample :
    (convertJimpToSemiGraphic allBlackImage).blocks = [[⟨0xFF, 0⟩]] ∧
    (convertImageDataToSemiGraphic allBlackImage).blocks = [[⟨0x00, 0⟩]] ∧
    convertJimpToSemiGraphic allBlackImage ≠ convertImageDataToSemiGraphic allBlackImage := by
  refine ⟨by decide, by decide, by decide⟩

/-- Amended claim C2: the two conversion paths always agree on grid
dimensions and on every block's color code; they agree on every pattern
byte — hence produce identical grids — whenever no in-range opaque pixel
quantizes to black (the ImageData path drops pattern bits of opaque
nearest-black pixels, the Jimp path keeps them). -/
theorem C2_paths_amended (img : ImageData) :
    (convertJimpToSemiGraphic img).width = (convertImageDataToSemiGraphic img).width ∧
    (convertJimpToSemiGraphic img).height = (convertImageDataToSemiGraphic img).height ∧
    (∀ x y : Nat, (jimpBlock img x y).colorCode = (imgDataBlock img x y).colorCode) ∧
    ((∀ px, px < img.width → ∀ py, py < img.height →
        127 < img.data (pixIdx img px py + 3) →
        findNearestColor ⟨img.data (pixIdx img px py), img.data (pixIdx img px py + 1),
          img.data (pixIdx img px py + 2)⟩ ≠ 0) →
      convertJimpToSemiGraphic img = convertImageDataToSemiGraphic img) := by
  refine ⟨rfl, rfl, ?_, ?_⟩
  · intro x y
    exact getMostFrequentColor_count_congr _ _ fun v hv =>
      votesCount_fold img x y cellList (0, []) (0, []) (fun _ _ => rfl) v hv
  · intro H
    simp only [convertJimpToSemiGraphic, convertImageDataToSemiGraphic]
    exact congrArg (SemiGraphicData.mk _ _)
      (List.map_congr_left fun y _ =>
        List.map_congr_left fun x _ => block_eq_of_noblack img x y H)

/-- Witness for C2 (amended): on a concrete all-white 2x4 image with a
mixed opacity mask, the two paths produce the same grid. -/
theorem C2_paths_amended_witness :
    convertJimpToSemiGraphic (whiteMaskImage 204) =
      convertImageDataToSemiGraphic (whiteMaskImage 204) :=
  (C2_paths_amended (whiteMaskImage 204)).2.2.2
    (by intro px hpx py hpy ha
        have hw : (whiteMaskImage 204).width = 2 := rfl
        have hh : (whiteMaskImage 204).height = 4 := rfl
        rw [hw] at hpx
        rw [hh] at hpy
        interval_cases px <;> interval_cases py <;> revert ha <;> exact (by decide))

/-- Witness for C9: chunk facts evaluated on a concrete 20-element row. -/
theorem C9_pattern_table_chunking_witness :
    (chunks16 (List.replicate 20 "$00")).flatten = List.replicate 20 "$00" :=
  (C9_pattern_table_chunking.2.1 (List.replicate 20 "$00")).1
